import Mathlib

/-!
Verification of the promptsec detection engine against its specification.

The Go sources are embedded shallowly: strings are modelled as lists of
runes (`List Char`), Go `float64` values as rationals (`ℚ`) where the code
performs only comparisons and copies, and as reals (`ℝ`) where the code
takes square roots (the embedding classifier).  Go maps keyed by strings
are modelled as association lists; iteration order over map keys only ever
feeds commutative sums in the code, so list order is immaterial.
Fields of source structs that no claim touches (FNV hashes of signatures,
creation timestamps, byte offsets of matches, elapsed durations) are
omitted; a comment marks each omission.
-/

/-- Runes of a Go string.  All inputs analysed here are ASCII, where Go's
byte-based indices and rune indices coincide. -/
abbrev Str := List Char

/-- Rune list of a string literal. -/
def strOf (s : String) : Str := s.data

/-- Go `strings.ToLower`, restricted to the ASCII range (the only range
exercised by the sources and tests modelled here); other runes are kept. -/
def charToLower (c : Char) : Char :=
  if 'A' ≤ c ∧ c ≤ 'Z' then Char.ofNat (c.toNat + 32) else c

/-- Go `unicode.IsSpace` on the ASCII white-space runes recognised by
`strings.TrimSpace`. -/
def isGoSpace (c : Char) : Bool :=
  c = ' ' ∨ c = '\t' ∨ c = '\n' ∨ c = Char.ofNat 11 ∨ c = Char.ofNat 12 ∨ c = '\r'

/-- Go `strings.TrimSpace`: drop white space from both ends. -/
def trimSpace (s : Str) : Str :=
  ((s.dropWhile isGoSpace).reverse.dropWhile isGoSpace).reverse

/-- Go `strings.Index`: position of the first occurrence of `pat` in `hay`,
`none` when absent (Go returns -1). -/
def firstIndexOf (hay pat : Str) : Option ℕ :=
  (List.range (hay.length + 1 - pat.length)).find?
    (fun i => decide ((hay.drop i).take pat.length = pat))

/-- Go `strings.Contains`. -/
def containsStr (hay pat : Str) : Bool :=
  (firstIndexOf hay pat).isSome

/-! ### Canary leak detector (guard/canary/detector.go) -/

/-- `minPartialLen`: minimum substring length considered meaningful for
partial-match detection. -/
def minPartialLen : ℕ := 8

/-- `stripNoise`: remove spaces, dashes, and underscores. -/
def stripNoise (s : Str) : Str :=
  s.filter (fun c => ¬ (c = ' ' ∨ c = '-' ∨ c = '_'))

/-- Strategy 4 of `detectLeak`: for each window offset try to find the
window of `normTok` of length `subLen` inside `normOut`; first hit wins.
The source sets `subLen := len(normTok)`, so the only window examined is
the full noise-stripped token. -/
def scanOffsets (normOut normTok : Str) (subLen : ℕ) : List ℕ → Option (ℕ × ℕ)
  | [] => none
  | off :: rest =>
    let sub := (normTok.drop off).take subLen
    match firstIndexOf normOut sub with
    | some idx => some (idx, idx + sub.length)
    | none => scanOffsets normOut normTok subLen rest

/-- `detectLeak`: return the span of the first match of `token` (or a
recognisable fragment) in `output`, trying four strategies in order:
exact, case-insensitive, noise-stripped, and the "partial" window scan. -/
def detectLeak (output token : Str) : Option (ℕ × ℕ) :=
  match firstIndexOf output token with
  | some idx => some (idx, idx + token.length)
  | none =>
    let lowerOut := output.map charToLower
    let lowerTok := token.map charToLower
    match firstIndexOf lowerOut lowerTok with
    | some idx => some (idx, idx + token.length)
    | none =>
      let normOut := stripNoise lowerOut
      let normTok := stripNoise lowerTok
      match firstIndexOf normOut normTok with
      | some idx => some (idx, idx + normTok.length)
      | none =>
        if minPartialLen ≤ normTok.length then
          let subLen := normTok.length
          scanOffsets normOut normTok subLen
            (List.range (normTok.length + 1 - subLen))
        else none

/-! ### Attack signatures (guard/memory/memory.go, signature part) -/

/-- Character trigrams of a rune list: one for every position `i` with
`i + 3 ≤ length`. -/
def trigramsOf (rs : Str) : List Str :=
  (List.range (rs.length + 1 - 3)).map (fun i => (rs.drop i).take 3)

/-- Increment the count of key `k` in an association-list multiset
(Go: `ngrams[tri]++`). -/
def bump : List (Str × ℕ) → Str → List (Str × ℕ)
  | [], k => [(k, 1)]
  | (k0, v) :: rest, k =>
    if k0 = k then (k0, v + 1) :: rest else (k0, v) :: bump rest k

/-- Count stored for key `k` (Go map read; absent keys read as 0). -/
def cnt : List (Str × ℕ) → Str → ℕ
  | [], _ => 0
  | (k0, v) :: rest, k => if k0 = k then v else cnt rest k

/-- `Signature`: trigram frequency map, rune length, and the threat
category/severity attached once the signature is confirmed.  The FNV-1a
`Hash` and the `CreatedAt` timestamp of the source struct are omitted:
no claim reads them (`Similarity` uses only `NGrams`). -/
structure Sig where
  ngrams : List (Str × ℕ)
  length : ℕ
  threatType : String
  severity : ℚ
deriving DecidableEq, Repr

/-- `GenerateSignature`: lowercase and trim the input, then collect
trigram frequencies.  A fresh signature has empty threat category and
zero severity (Go zero values). -/
def generateSignature (input : Str) : Sig :=
  let normalised := (trimSpace input).map charToLower
  { ngrams := (trigramsOf normalised).foldl bump []
    length := normalised.length
    threatType := ""
    severity := 0 }

/-- The intersection sum of `Signature.Similarity`: `min(count_a, count_b)`
accumulated over the union of trigram keys. -/
def interSum (a b : List (Str × ℕ)) : ℕ :=
  (((a.map Prod.fst) ++ (b.map Prod.fst)).dedup.map
    (fun k => min (cnt a k) (cnt b k))).sum

/-- The union sum of `Signature.Similarity`: `max(count_a, count_b)`
accumulated over the union of trigram keys. -/
def unionSum (a b : List (Str × ℕ)) : ℕ :=
  (((a.map Prod.fst) ++ (b.map Prod.fst)).dedup.map
    (fun k => max (cnt a k) (cnt b k))).sum

/-- `Signature.Similarity`: generalised (multiset) Jaccard similarity of
the trigram maps.  Two empty maps are identical (1.0); an empty map
against a non-empty one is completely dissimilar (0.0); a zero union sum
yields 0.0. -/
def similarity (s other : Sig) : ℚ :=
  if s.ngrams = [] ∧ other.ngrams = [] then 1
  else if s.ngrams = [] ∨ other.ngrams = [] then 0
  else if unionSum s.ngrams other.ngrams = 0 then 0
  else (interSum s.ngrams other.ngrams : ℚ) / (unionSum s.ngrams other.ngrams : ℚ)

/-- Well-formedness of a signature as produced by `generateSignature`:
every stored trigram count is positive (Go maps built by `ngrams[tri]++`
never hold a zero). -/
def SigWF (s : Sig) : Prop := ∀ e ∈ s.ngrams, 0 < e.2

instance (s : Sig) : Decidable (SigWF s) := by
  unfold SigWF; infer_instance

/-! ### In-memory signature store (guard/memory/store.go) -/

/-- `InMemoryStore`: ordered bounded collection of signatures.  The
`sync.RWMutex` is not modelled: every claim is about the sequential
behaviour of single operations. -/
structure MemStore where
  signatures : List Sig
  maxSize : ℕ
deriving DecidableEq, Repr

/-- `NewInMemoryStore`: non-positive capacities fall back to 10000. -/
def newInMemoryStore (maxSize : ℤ) : MemStore :=
  if maxSize ≤ 0 then { signatures := [], maxSize := 10000 }
  else { signatures := [], maxSize := maxSize.toNat }

/-- `InMemoryStore.Add`: evict the oldest signature when at capacity,
then append; always returns a nil error (`none`).  (The Go shift-and-
overwrite at capacity equals dropping the head and appending; the state
`maxSize = 0 ∧ signatures = []`, unreachable from the constructor, would
make the Go code panic on a negative index.) -/
def storeAdd (s : MemStore) (sig : Sig) : MemStore × Option String :=
  if s.maxSize ≤ s.signatures.length then
    ({ s with signatures := s.signatures.drop 1 ++ [sig] }, none)
  else
    ({ s with signatures := s.signatures ++ [sig] }, none)

/-- Loop body of `InMemoryStore.Search`: scan stored signatures in order,
skip those under the threshold, keep the strictly best match, and break
on a perfect (1.0) similarity. -/
def searchGo (query : Sig) (threshold : ℚ) : List Sig → Option (Sig × ℚ) → Option (Sig × ℚ)
  | [], best => best
  | stored :: rest, best =>
    let sim := similarity query stored
    if sim < threshold then searchGo query threshold rest best
    else
      let best' := match best with
        | none => some (stored, sim)
        | some b => if b.2 < sim then some (stored, sim) else some b
      if sim = 1 then best' else searchGo query threshold rest best'

/-- `InMemoryStore.Search`: best stored match with similarity at or above
`threshold`, or `none`. -/
def storeSearch (s : MemStore) (query : Sig) (threshold : ℚ) : Option (Sig × ℚ) :=
  searchGo query threshold s.signatures none

/-- A sequence of `Add` calls, in order (errors are nil and dropped). -/
def addAll (sigs : List Sig) (st : MemStore) : MemStore :=
  sigs.foldl (fun acc sg => (storeAdd acc sg).1) st

/-! ### Context and threat model (internal/core) -/

/-- Metadata values stored on a context (`map[string]any` in Go,
restricted to the value shapes the modelled guards actually write). -/
inductive MetaVal where
  | b (x : Bool)
  | q (x : ℚ)
  | n (x : ℕ)
  | s (x : String)
deriving DecidableEq, Repr

/-- `core.Threat`.  `Type` is the string-typed threat category
("instruction_override", "role_manipulation", ..., "custom"); severity is
a rational standing for the Go `float64`.  The `Match`/`Start`/`End`
offsets are omitted: no claim reads them. -/
structure Threat where
  ttype : String
  severity : ℚ
  message : String
  guard : String
deriving DecidableEq, Repr

/-- `core.Context`: the record threaded through the guard chain.
`StartTime` and `TrustLevel` are omitted: no claim reads them. -/
structure Context where
  rawInput : Str
  input : Str
  threats : List Threat
  metadata : List (String × MetaVal)
  halted : Bool
deriving DecidableEq, Repr

/-- `core.NewContext`. -/
def newContext (input : Str) : Context :=
  { rawInput := input, input := input, threats := [], metadata := [], halted := false }

/-- `Context.AddThreat`: threats are append-only. -/
def addThreat (c : Context) (t : Threat) : Context :=
  { c with threats := c.threats ++ [t] }

/-- Go map assignment for metadata: overwrite the key or add it. -/
def setMeta : List (String × MetaVal) → String → MetaVal → List (String × MetaVal)
  | [], k, v => [(k, v)]
  | (k0, v0) :: rest, k, v =>
    if k0 = k then (k0, v) :: rest else (k0, v0) :: setMeta rest k v

/-- `Context.SetMeta`. -/
def setMetaC (c : Context) (k : String) (v : MetaVal) : Context :=
  { c with metadata := setMeta c.metadata k v }

/-! ### Memory guard (guard/memory/memory.go) -/

/-- The selection loop of the memory guard's post-processing: walk the
newly appended threats keeping the type and severity of the strictly
highest-severity one, starting from the Go zero values `("", 0)`. -/
def bestNew (ts : List Threat) : String × ℚ :=
  ts.foldl (fun acc t => if acc.2 < t.severity then (t.ttype, t.severity) else acc) ("", 0)

/-- The maximum severity among a list of threats, taking 0 when the list
is empty or every severity is non-positive (this is the value the memory
guard's strict-greater selection loop actually computes). -/
def maxSev (ts : List Threat) : ℚ :=
  ts.foldl (fun a t => max a t.severity) 0

/-- Pre-processing step of `memory.Guard.Execute`: search the store for
the input's signature and, on a hit, raise a threat carrying the stored
signature's category (defaulting to "custom" when empty) and severity,
and record match metadata.  (The formatted similarity score inside the
Go message is elided from the constant message text.) -/
def memPreCtx (store : MemStore) (threshold : ℚ) (ctx : Context) : Context :=
  match storeSearch store (generateSignature ctx.input) threshold with
  | some m =>
    let tt := if m.1.threatType = "" then "custom" else m.1.threatType
    let c := addThreat ctx
      { ttype := tt, severity := m.1.severity
        message := "input matches previously seen attack", guard := "memory" }
    setMetaC (setMetaC c "memory.matched" (MetaVal.b true)) "memory.similarity" (MetaVal.q m.2)
  | none => ctx

/-- `memory.Guard.Execute`: search-then-learn.  Returns the updated store
and the final context.  The continuation `next` stands for the remainder
of the pipeline and is invoked only when the context is not halted. -/
def memExecute (store : MemStore) (threshold : ℚ) (ctx : Context)
    (next : Context → Context) : MemStore × Context :=
  let ctx1 := memPreCtx store threshold ctx
  let threatsBefore := ctx1.threats.length
  let ctx2 := if ctx1.halted then ctx1 else next ctx1
  let learn := threatsBefore < ctx2.threats.length
  let store' :=
    if learn then
      let sel := bestNew (ctx2.threats.drop threatsBefore)
      let bt := if sel.1 = "" then "custom" else sel.1
      (storeAdd store
        { generateSignature ctx.input with threatType := bt, severity := sel.2 }).1
    else store
  let ctx3 := if learn then setMetaC ctx2 "memory.stored" (MetaVal.b true) else ctx2
  (store', setMetaC ctx3 "memory.signatures" (MetaVal.n store'.signatures.length))

/-- The slice `ctx.Threats[threatsBefore:]` the memory guard inspects
after the downstream guards return: the threats beyond the snapshot
taken just after its own pre-processing. -/
def memNewThreats (store : MemStore) (thr : ℚ) (ctx : Context)
    (next : Context → Context) : List Threat :=
  ((if (memPreCtx store thr ctx).halted then memPreCtx store thr ctx
    else next (memPreCtx store thr ctx)).threats).drop
    (memPreCtx store thr ctx).threats.length

/-! ### Pipeline executor and verdict (promptsec.go) -/

/-- A guard, modelled by its observable behaviour under the
`Execute(ctx, next)` contract: a context mutation performed before the
continuation, a decision whether to invoke the continuation (at most
once), and a mutation of the continuation's result (which may also read
the pre-continuation context, as Go closures do). -/
structure GuardM where
  name : String
  isOutput : Bool
  before : Context → Context
  callNext : Context → Bool
  after : Context → Context → Context

/-- `Protector.runGuards`, instrumented with the list of names of the
guards whose `Execute` actually ran: stop when past the end of the list
or when the context is halted; otherwise run the guard, passing the rest
of the chain as its continuation. -/
def runGuardsT : List GuardM → Context → Context × List String
  | [], ctx => (ctx, [])
  | g :: rest, ctx =>
    if ctx.halted then (ctx, [])
    else
      let c1 := g.before ctx
      if g.callNext c1 then
        let r := runGuardsT rest c1
        (g.after c1 r.1, g.name :: r.2)
      else (c1, [g.name])

/-- The context produced by the guard chain. -/
def runGuards (gs : List GuardM) (ctx : Context) : Context :=
  (runGuardsT gs ctx).1

/-- A guard whose mutations only append threats (the `Context.AddThreat`
discipline every guard in the repository follows). -/
def MonotoneGuard (g : GuardM) : Prop :=
  (∀ c, ∃ ts, (g.before c).threats = c.threats ++ ts) ∧
  (∀ c d, ∃ ts, (g.after c d).threats = d.threats ++ ts)

/-- `Protector`: input-phase guards, output-phase guards, and the safety
threshold. -/
structure ProtectorM where
  guards : List GuardM
  outputGuards : List GuardM
  threshold : ℚ

/-- `New`: split guards into the input and output phases (a guard
self-declares via `IsOutputGuard`) and fix the threshold at 0.5. -/
def newProtector (gs : List GuardM) : ProtectorM :=
  { guards := gs.filter (fun g => !g.isOutput)
    outputGuards := gs.filter (fun g => g.isOutput)
    threshold := 1/2 }

/-- `Result` (the `Duration` field is omitted: no claim reads it). -/
structure ResultM where
  safe : Bool
  threats : List Threat
  output : Str
  metadata : List (String × MetaVal)
deriving DecidableEq, Repr

/-- `Protector.buildResult`: safe unless some recorded threat reaches the
threshold. -/
def buildResult (p : ProtectorM) (ctx : Context) : ResultM :=
  { safe := !(ctx.threats.any (fun t => decide (t.severity ≥ p.threshold)))
    threats := ctx.threats
    output := ctx.input
    metadata := ctx.metadata }

/-- `Protector.Analyze`. -/
def analyze (p : ProtectorM) (input : Str) : ResultM :=
  buildResult p (runGuards p.guards (newContext input))

/-- `Protector.ValidateOutput`: run the output-phase chain over a context
seeded with the caller's metadata. -/
def validateOutput (p : ProtectorM) (output : Str)
    (md : List (String × MetaVal)) : ResultM :=
  buildResult p (runGuards p.outputGuards { newContext output with metadata := md })

/-! ### Fuzzy / typo matcher (guard/heuristic, fuzzy part) -/

/-- `leetMap`: leet-speak substitutions mapped back to canonical letters. -/
def leetLookup (c : Char) : Option Char :=
  match c with
  | '1' => some 'i'
  | '!' => some 'i'
  | '|' => some 'i'
  | '0' => some 'o'
  | '@' => some 'a'
  | '4' => some 'a'
  | '$' => some 's'
  | '5' => some 's'
  | '3' => some 'e'
  | '7' => some 't'
  | '+' => some 't'
  | '8' => some 'b'
  | '6' => some 'g'
  | '9' => some 'g'
  | '2' => some 'z'
  | _ => none

/-- Go `unicode.IsLetter`, restricted to ASCII (the range the keywords
and modelled inputs live in). -/
def isAsciiLetter (c : Char) : Bool :=
  ('a' ≤ c ∧ c ≤ 'z') ∨ ('A' ≤ c ∧ c ≤ 'Z')

/-- Go `unicode.IsDigit`, restricted to ASCII. -/
def isAsciiDigit (c : Char) : Bool := '0' ≤ c ∧ c ≤ '9'

/-- `criticalKeywords`: the fixed keyword list fuzzy matching targets. -/
def criticalKeywords : List Str :=
  [strOf "ignore", strOf "system", strOf "instructions", strOf "prompt",
   strOf "override", strOf "disregard", strOf "forget", strOf "pretend",
   strOf "reveal", strOf "assistant", strOf "previous"]

/-- `normalizeForFuzzy`: apply the leet map first; otherwise lowercase and
keep letters and digits, turn spaces/tabs/newlines into a single space
class, and strip everything else. -/
def normalizeForFuzzy : Str → Str
  | [] => []
  | r :: rest =>
    match leetLookup r with
    | some m => m :: normalizeForFuzzy rest
    | none =>
      let lr := charToLower r
      if isAsciiLetter lr ∨ isAsciiDigit lr then lr :: normalizeForFuzzy rest
      else if lr = ' ' ∨ lr = '\t' ∨ lr = '\n' then ' ' :: normalizeForFuzzy rest
      else normalizeForFuzzy rest

/-- Inner cell update of the `levenshtein` dynamic programme: walk the
second word with the previous DP row, computing the current row.
`left` is the cell just computed to the left (`curr[j-1]`). -/
def levRowAux (ai : Char) : List Char → List ℕ → ℕ → List ℕ
  | [], _, _ => []
  | _, [], _ => []
  | bj :: bs, pj1 :: prest, left =>
    let pj := prest.headD 0
    let cost := if ai = bj then 0 else 1
    let cur := min (pj + 1) (min (left + 1) (pj1 + cost))
    cur :: levRowAux ai bs prest cur

/-- Row iteration of `levenshtein`: one row per rune of the first word,
starting from the base row `[0, 1, ..., lb]`; row `i` starts at `i`. -/
def levGo (b : List Char) : List Char → List ℕ → ℕ → List ℕ
  | [], prev, _ => prev
  | ai :: as0, prev, i => levGo b as0 (i :: levRowAux ai b prev i) (i + 1)

/-- `levenshtein` of the source (named `levDist` here to avoid clashing
with Mathlib): classic edit distance via the rolling-row DP; the answer
is the last cell of the last row. -/
def levDist (a b : List Char) : ℕ :=
  if a.isEmpty then b.length
  else if b.isEmpty then a.length
  else (levGo b a (List.range (b.length + 1)) 1).getLastD 0

/-- `fuzzyContains`: exact containment fast path, then windows of
`len(keyword) ± 1` runes scanned with edit-distance tolerance 1
(2 for keywords of 8+ runes). -/
def fuzzyContains (hs kw : Str) : Bool :=
  if kw.length = 0 then false
  else if containsStr hs kw then true
  else
    let maxDist := if 8 ≤ kw.length then 2 else 1
    (List.range 3).any (fun d =>
      let winSize := kw.length - 1 + d
      if winSize = 0 ∨ hs.length < winSize then false
      else (List.range (hs.length - winSize + 1)).any (fun i =>
        decide (levDist ((hs.drop i).take winSize) kw ≤ maxDist)))

/-- `fuzzyMatch`: normalise the input once, then collect every critical
keyword with a fuzzy match, in keyword-list order. -/
def fuzzyMatch (input : Str) : List Str :=
  criticalKeywords.filter (fun kw => fuzzyContains (normalizeForFuzzy input) kw)

/-- The single threat the heuristic guard's fuzzy stage may raise. -/
def fuzzyThreat : Threat :=
  { ttype := "instruction_override", severity := 13/20
    message := "fuzzy match detected multiple injection-related keywords", guard := "heuristic" }

/-- Stage 3 of `heuristic.Guard.Execute`: when two or more distinct
critical keywords fuzzy-match, add exactly one instruction-override
threat of severity 0.65 (halting if so configured); otherwise leave the
context untouched. -/
def heuristicFuzzyStage (ctx : Context) (haltOnDetect : Bool) : Context :=
  if 2 ≤ (fuzzyMatch ctx.input).length then
    let c := addThreat ctx fuzzyThreat
    if haltOnDetect then { c with halted := true } else c
  else ctx

/-! ### Embedding classifier (guard/embedding)

Floating-point values produced by square roots are modelled as reals, so
the definitions of this section are noncomputable; the claims about them
are structural and need no evaluation. -/

/-- `VectorSize`: fixed dimensionality of feature vectors. -/
def vectorSize : ℕ := 256

/-- `ngramHash`: FNV-style 32-bit mixing of up to three runes (the third
is 0 for bigrams).  `uint32` arithmetic is modelled by reducing the
products modulo 2^32; xor of reduced values never overflows. -/
def ngramHash (a b c : ℕ) : ℕ :=
  let p := 16777619
  let h1 := (Nat.xor 2166136261 a * p) % 4294967296
  let h2 := (Nat.xor h1 b * p) % 4294967296
  (Nat.xor h2 c * p) % 4294967296

/-- Increment bucket `i` of an accumulator list. -/
def incrAt (l : List ℕ) (i : ℕ) : List ℕ := l.set i (l.getD i 0 + 1)

/-- The bucket accumulation of `TextToVector`: lowercase the runes, hash
every bigram (third rune 0) and trigram into `vectorSize` buckets, and
count frequencies. -/
def bucketCounts (text : Str) : List ℕ :=
  let lower := text.map charToLower
  let code := fun (i : ℕ) => (lower.getD i ' ').toNat
  let big := (List.range (lower.length - 1)).map
    (fun i => ngramHash (code i) (code (i + 1)) 0 % vectorSize)
  let tri := (List.range (lower.length - 2)).map
    (fun i => ngramHash (code i) (code (i + 1)) (code (i + 2)) % vectorSize)
  (big ++ tri).foldl incrAt (List.replicate vectorSize 0)

/-- `L2Normalize`: scale to unit Euclidean norm, or return the all-zero
vector when the magnitude is zero. -/
noncomputable def l2normalize (v : List ℝ) : List ℝ :=
  let sum := (v.map (fun x => x * x)).sum
  if sum = 0 then v.map (fun _ => 0)
  else v.map (fun x => x / Real.sqrt sum)

/-- `TextToVector`: bucket frequencies, L2-normalised. -/
noncomputable def textToVector (text : Str) : List ℝ :=
  l2normalize ((bucketCounts text).map (fun n => (n : ℝ)))

/-- `CosineSimilarity`: 0 for mismatched lengths, empty vectors, or a
zero-magnitude side; otherwise the normalised dot product. -/
noncomputable def cosineSimilarity (a b : List ℝ) : ℝ :=
  if a.length ≠ b.length ∨ a.length = 0 then 0
  else
    let dot := ((a.zip b).map (fun p => p.1 * p.2)).sum
    let normA := (a.map (fun x => x * x)).sum
    let normB := (b.map (fun x => x * x)).sum
    if normA = 0 ∨ normB = 0 then 0 else dot / (Real.sqrt normA * Real.sqrt normB)

/-- `embedding.Vector`: a labelled attack reference vector. -/
structure EVector where
  label : String
  values : List ℝ
  ttype : String

/-- A threat raised by the embedding guard.  Its real-valued severity is
the cosine similarity score; the vector label stands in for the formatted
Go message. -/
structure EThreat where
  ttype : String
  severity : ℝ
  label : String
  guard : String

/-- The threat `embedding.Guard.Execute` builds for reference vector `v`
on input `input`: category from the vector ("custom" when empty),
severity equal to the cosine similarity score. -/
noncomputable def mkEThreat (input : Str) (v : EVector) : EThreat :=
  { ttype := if v.ttype = "" then "custom" else v.ttype
    severity := cosineSimilarity (textToVector input) v.values
    label := v.label
    guard := "embedding" }

open Classical in
/-- The threats appended by the main loop of `embedding.Guard.Execute`:
one per reference vector whose similarity with the input vector meets or
exceeds the threshold, in vector order. -/
noncomputable def embThreatsFor (threshold : ℝ) (input : Str) : List EVector → List EThreat
  | [] => []
  | v :: rest =>
    if threshold ≤ cosineSimilarity (textToVector input) v.values then
      mkEThreat input v :: embThreatsFor threshold input rest
    else embThreatsFor threshold input rest

/-- Context shape used by the embedding guard model (real-valued threats;
the per-label score map also written to metadata). -/
structure EContext where
  input : Str
  threats : List EThreat
  scores : List (String × ℝ)
  halted : Bool

/-- `embedding.Guard.Execute`: append a threat per matching reference
vector, record every score in metadata, then invoke the continuation
unless halted. -/
noncomputable def embExecute (threshold : ℝ) (vectors : List EVector)
    (ctx : EContext) (next : EContext → EContext) : EContext :=
  let ctx1 :=
    { ctx with
      threats := ctx.threats ++ embThreatsFor threshold ctx.input vectors
      scores := vectors.map
        (fun v => (v.label, cosineSimilarity (textToVector ctx.input) v.values)) }
  if ctx1.halted then ctx1 else next ctx1

open Classical in
/-- Threshold selection of `embedding.New`: a zero configured threshold
falls back to the default 0.75. -/
noncomputable def embNewThreshold (configured : ℝ) : ℝ :=
  if configured = 0 then 3/4 else configured

/-! ### Shared lemmas -/

/-- Pointwise `min ≤ max` makes the intersection sum at most the union
sum. -/
theorem interSum_le_unionSum (a b : List (Str × ℕ)) : interSum a b ≤ unionSum a b := by
  unfold interSum unionSum
  exact List.sum_le_sum (fun k _ => min_le_max)

/-- Jaccard similarity is nonnegative. -/
theorem similarity_nonneg (s o : Sig) : 0 ≤ similarity s o := by
  unfold similarity
  split_ifs with h1 h2 h3
  · norm_num
  · norm_num
  · norm_num
  · positivity

/-- Jaccard similarity is at most one. -/
theorem similarity_le_one (s o : Sig) : similarity s o ≤ 1 := by
  unfold similarity
  split_ifs with h1 h2 h3
  · norm_num
  · norm_num
  · norm_num
  · rw [div_le_one (by exact_mod_cast Nat.pos_of_ne_zero h3)]
    exact_mod_cast interSum_le_unionSum s.ngrams o.ngrams

/-- `bump` never produces an empty map. -/
theorem bump_ne_nil (m : List (Str × ℕ)) (k : Str) : bump m k ≠ [] := by
  cases m with
  | nil => simp [bump]
  | cons e rest =>
    obtain ⟨k0, v⟩ := e
    unfold bump
    split_ifs <;> simp

/-- Folding `bump` over a non-empty trigram list yields a non-empty map. -/
theorem foldl_bump_ne_nil : ∀ (l : List Str) (m : List (Str × ℕ)),
    m ≠ [] ∨ l ≠ [] → l.foldl bump m ≠ [] := by
  intro l
  induction l with
  | nil =>
    intro m h
    simpa using h.resolve_right (by simp)
  | cons k ks ih =>
    intro m _
    simpa [List.foldl_cons] using ih (bump m k) (Or.inl (bump_ne_nil m k))

/-- The trigram list is empty exactly when the text has fewer than three
runes. -/
theorem trigramsOf_eq_nil_iff (rs : Str) : trigramsOf rs = [] ↔ rs.length < 3 := by
  unfold trigramsOf
  rw [List.map_eq_nil_iff, List.range_eq_nil]
  omega

/-- A generated signature has no trigrams exactly when the normalised
input has fewer than three runes. -/
theorem generateSignature_ngrams_eq_nil_iff (t : Str) :
    (generateSignature t).ngrams = [] ↔ (generateSignature t).length < 3 := by
  show (trigramsOf ((trimSpace t).map charToLower)).foldl bump [] = [] ↔ _
  constructor
  · intro h
    by_contra hlen
    have h3 : ¬ ((trimSpace t).map charToLower).length < 3 := by
      simpa [generateSignature] using hlen
    have : trigramsOf ((trimSpace t).map charToLower) ≠ [] := by
      intro he
      exact h3 ((trigramsOf_eq_nil_iff _).mp he)
    exact foldl_bump_ne_nil _ [] (Or.inr this) h
  · intro h
    have : trigramsOf ((trimSpace t).map charToLower) = [] :=
      (trigramsOf_eq_nil_iff _).mpr (by simpa [generateSignature] using h)
    simp [this]

/-- Trimming never lengthens a string. -/
theorem trimSpace_length_le (t : Str) : (trimSpace t).length ≤ t.length := by
  unfold trimSpace
  calc ((t.dropWhile isGoSpace).reverse.dropWhile isGoSpace).reverse.length
      = ((t.dropWhile isGoSpace).reverse.dropWhile isGoSpace).length := by
        rw [List.length_reverse]
    _ ≤ (t.dropWhile isGoSpace).reverse.length :=
        (List.dropWhile_sublist _).length_le
    _ = (t.dropWhile isGoSpace).length := by rw [List.length_reverse]
    _ ≤ t.length := (List.dropWhile_sublist _).length_le

/-- The normalised rune length recorded in a signature never exceeds the
raw input length. -/
theorem generateSignature_length_le (t : Str) : (generateSignature t).length ≤ t.length := by
  show ((trimSpace t).map charToLower).length ≤ t.length
  rw [List.length_map]
  exact trimSpace_length_le t

/-- Reflexivity of the Jaccard similarity for well-formed signatures. -/
theorem similarity_self (s : Sig) (h : SigWF s) : similarity s s = 1 := by
  unfold similarity
  by_cases hne : s.ngrams = []
  · simp [hne]
  · obtain ⟨e, rest, hn⟩ := List.exists_cons_of_ne_nil hne
    have hmm : interSum s.ngrams s.ngrams = unionSum s.ngrams s.ngrams := by
      unfold interSum unionSum
      exact congrArg _ (List.map_congr_left (fun k _ => by rw [min_self, max_self]))
    have hv0 : 0 < e.2 := h e (by rw [hn]; exact List.mem_cons_self _ _)
    have hk0 : e.1 ∈ ((s.ngrams.map Prod.fst) ++ (s.ngrams.map Prod.fst)).dedup := by
      rw [List.mem_dedup, List.mem_append]
      exact Or.inl (List.mem_map_of_mem Prod.fst (by rw [hn]; exact List.mem_cons_self _ _))
    have hcnt : cnt s.ngrams e.1 = e.2 := by
      rw [hn]; obtain ⟨k0, v0⟩ := e; simp [cnt]
    have hpos : 0 < unionSum s.ngrams s.ngrams := by
      unfold unionSum
      have hmem : max (cnt s.ngrams e.1) (cnt s.ngrams e.1)
          ∈ ((s.ngrams.map Prod.fst) ++ (s.ngrams.map Prod.fst)).dedup.map
            (fun k => max (cnt s.ngrams k) (cnt s.ngrams k)) :=
        List.mem_map_of_mem _ hk0
      have := List.single_le_sum (fun x _ => Nat.zero_le x) _ hmem
      omega
    have hu : unionSum s.ngrams s.ngrams ≠ 0 := Nat.pos_iff_ne_zero.mp hpos
    rw [if_neg (by simp [hne]), if_neg (by simp [hne]), if_neg hu, hmm]
    exact div_self (by exact_mod_cast hu)

/-- If some stored signature matches the query perfectly and the
threshold is at most 1, the search loop returns a match of similarity 1
(it may short-circuit on an earlier perfect match). -/
theorem searchGo_perfect (query : Sig) (thr : ℚ) (hthr : thr ≤ 1) :
    ∀ (l : List Sig) (best : Option (Sig × ℚ)),
      (∀ b, best = some b → b.2 ≤ 1) →
      (∃ s ∈ l, similarity query s = 1) →
      ∃ r, searchGo query thr l best = some r ∧ r.2 = 1 := by
  intro l
  induction l with
  | nil => intro best _ hex; simp at hex
  | cons stored rest ih =>
    intro best hbest hex
    by_cases hsim : similarity query stored = 1
    · have hskip : ¬ similarity query stored < thr := by rw [hsim]; exact not_lt.mpr hthr
      unfold searchGo
      rw [if_neg hskip, if_pos hsim]
      cases best with
      | none => exact ⟨(stored, similarity query stored), rfl, hsim⟩
      | some b =>
        by_cases hb : b.2 < similarity query stored
        · exact ⟨(stored, similarity query stored), by simp [hb], hsim⟩
        · refine ⟨b, by simp [hb], ?_⟩
          exact le_antisymm (hbest b rfl) (by rw [← hsim]; exact not_lt.mp hb)
    · have hrest : ∃ s ∈ rest, similarity query s = 1 := by
        rcases hex with ⟨s, hs, h1⟩
        rcases List.mem_cons.mp hs with rfl | hmem
        · exact absurd h1 hsim
        · exact ⟨s, hmem, h1⟩
      unfold searchGo
      by_cases hskip : similarity query stored < thr
      · rw [if_pos hskip]; exact ih best hbest hrest
      · rw [if_neg hskip, if_neg hsim]
        apply ih _ _ hrest
        intro b hb
        cases best with
        | none =>
          simp only [Option.some.injEq] at hb
          rw [← hb]
          exact similarity_le_one query stored
        | some b0 =>
          by_cases hlt : b0.2 < similarity query stored
          · simp only [hlt, if_true, Option.some.injEq] at hb
            rw [← hb]
            exact similarity_le_one query stored
          · simp only [hlt, if_false, Option.some.injEq] at hb
            rw [← hb]
            exact hbest b0 rfl

/-- `Add` never changes the configured capacity. -/
theorem storeAdd_maxSize (s : MemStore) (sig : Sig) : (storeAdd s sig).1.maxSize = s.maxSize := by
  unfold storeAdd
  split_ifs <;> rfl

/-- One `Add` preserves the capacity bound (for positive capacity). -/
theorem storeAdd_length_le (s : MemStore) (sig : Sig)
    (hcap : 1 ≤ s.maxSize) (h : s.signatures.length ≤ s.maxSize) :
    (storeAdd s sig).1.signatures.length ≤ s.maxSize := by
  unfold storeAdd
  split_ifs with hfull
  · simp only [List.length_append, List.length_drop, List.length_cons, List.length_nil]
    omega
  · simp only [List.length_append, List.length_cons, List.length_nil]
    omega

/-- The capacity bound is preserved by any sequence of `Add` calls. -/
theorem addAll_length_le : ∀ (sigs : List Sig) (st : MemStore),
    1 ≤ st.maxSize → st.signatures.length ≤ st.maxSize →
    (addAll sigs st).signatures.length ≤ st.maxSize := by
  intro sigs
  induction sigs with
  | nil => intro st _ h; exact h
  | cons sg rest ih =>
    intro st hcap h
    have h1 := storeAdd_length_le st sg hcap h
    have h2 := storeAdd_maxSize st sg
    have := ih (storeAdd st sg).1 (h2 ▸ hcap) (h2 ▸ h1)
    simpa [addAll, h2] using this

/-- The selection loop's severity component computes a running maximum. -/
theorem bestNew_snd_eq (ts : List Threat) : (bestNew ts).2 = maxSev ts := by
  unfold bestNew maxSev
  suffices h : ∀ (init : String × ℚ),
      (ts.foldl (fun acc t => if acc.2 < t.severity then (t.ttype, t.severity) else acc) init).2
        = ts.foldl (fun a t => max a t.severity) init.2 by
    exact h ("", 0)
  induction ts with
  | nil => intro init; rfl
  | cons t rest ih =>
    intro init
    simp only [List.foldl_cons]
    rcases lt_or_ge init.2 t.severity with hlt | hge
    · rw [if_pos hlt, ih (t.ttype, t.severity), max_eq_right hlt.le]
    · rw [if_neg (not_lt.mpr hge), ih init, max_eq_left hge]

/-- The selection loop either keeps the zero start or lands on some
threat in the list. -/
theorem bestNew_cases (ts : List Threat) :
    bestNew ts = ("", 0) ∨ ∃ t ∈ ts, bestNew ts = (t.ttype, t.severity) := by
  unfold bestNew
  suffices h : ∀ (init : String × ℚ),
      (ts.foldl (fun acc t => if acc.2 < t.severity then (t.ttype, t.severity) else acc) init) = init
      ∨ ∃ t ∈ ts,
        (ts.foldl (fun acc t => if acc.2 < t.severity then (t.ttype, t.severity) else acc) init)
          = (t.ttype, t.severity) by
    rcases h ("", 0) with h0 | ⟨t, ht, he⟩
    · exact Or.inl h0
    · exact Or.inr ⟨t, ht, he⟩
  induction ts with
  | nil => intro init; exact Or.inl rfl
  | cons t rest ih =>
    intro init
    simp only [List.foldl_cons]
    by_cases hlt : init.2 < t.severity
    · rw [if_pos hlt]
      rcases ih (t.ttype, t.severity) with h0 | ⟨u, hu, he⟩
      · exact Or.inr ⟨t, List.mem_cons_self _ _, h0⟩
      · exact Or.inr ⟨u, List.mem_cons_of_mem _ hu, he⟩
    · rw [if_neg hlt]
      rcases ih init with h0 | ⟨u, hu, he⟩
      · exact Or.inl h0
      · exact Or.inr ⟨u, List.mem_cons_of_mem _ hu, he⟩

/-- Every listed severity is at most the running maximum. -/
theorem le_maxSev (ts : List Threat) : ∀ t ∈ ts, t.severity ≤ maxSev ts := by
  unfold maxSev
  suffices h : ∀ (init : ℚ),
      (∀ t ∈ ts, t.severity ≤ ts.foldl (fun a t => max a t.severity) init)
      ∧ init ≤ ts.foldl (fun a t => max a t.severity) init by
    exact (h 0).1
  induction ts with
  | nil => intro init; exact ⟨by simp, le_refl _⟩
  | cons t rest ih =>
    intro init
    simp only [List.foldl_cons]
    refine ⟨?_, ?_⟩
    · intro u hu
      rcases List.mem_cons.mp hu with rfl | hmem
      · exact le_trans (le_max_right init u.severity) (ih (max init u.severity)).2
      · exact (ih (max init t.severity)).1 u hmem
    · exact le_trans (le_max_left init t.severity) (ih (max init t.severity)).2

/-- The running maximum is nonnegative. -/
theorem maxSev_nonneg (ts : List Threat) : 0 ≤ maxSev ts := by
  unfold maxSev
  suffices h : ∀ (init : ℚ), init ≤ ts.foldl (fun a t => max a t.severity) init by
    exact h 0
  induction ts with
  | nil => intro init; exact le_refl _
  | cons t rest ih =>
    intro init
    exact le_trans (le_max_left init t.severity) (ih (max init t.severity))

/-- When no listed severity is positive, the selection loop never fires. -/
theorem bestNew_of_nonpos (ts : List Threat) (h : ∀ t ∈ ts, t.severity ≤ 0) :
    bestNew ts = ("", 0) := by
  unfold bestNew
  induction ts with
  | nil => rfl
  | cons t rest ih =>
    simp only [List.foldl_cons]
    rw [if_neg (not_lt.mpr (h t (List.mem_cons_self _ _)))]
    exact ih (fun u hu => h u (List.mem_cons_of_mem _ hu))

/-- A halted context stops the chain immediately. -/
theorem runGuardsT_halted (gs : List GuardM) (ctx : Context) (h : ctx.halted = true) :
    runGuardsT gs ctx = (ctx, []) := by
  cases gs with
  | nil => rfl
  | cons g rest => unfold runGuardsT; rw [if_pos h]

/-- Threat retention: when every guard only appends threats, the chain
only appends threats. -/
theorem runGuardsT_threats_mono : ∀ (gs : List GuardM) (ctx : Context),
    (∀ g ∈ gs, MonotoneGuard g) →
    ∃ ts, (runGuardsT gs ctx).1.threats = ctx.threats ++ ts := by
  intro gs
  induction gs with
  | nil => intro ctx _; exact ⟨[], by simp [runGuardsT]⟩
  | cons g rest ih =>
    intro ctx hmono
    by_cases hhalt : ctx.halted = true
    · exact ⟨[], by simp [runGuardsT_halted _ _ hhalt]⟩
    · have hg := hmono g (List.mem_cons_self _ _)
      obtain ⟨a, ha⟩ := hg.1 ctx
      unfold runGuardsT
      rw [if_neg hhalt]
      by_cases hcall : g.callNext (g.before ctx) = true
      · rw [if_pos hcall]
        obtain ⟨b, hb⟩ := ih (g.before ctx) (fun u hu => hmono u (List.mem_cons_of_mem _ hu))
        obtain ⟨c, hc⟩ := hg.2 (g.before ctx) (runGuardsT rest (g.before ctx)).1
        exact ⟨a ++ b ++ c, by simp [hc, hb, ha]⟩
      · rw [if_neg hcall]
        exact ⟨a, ha⟩

/-! ### Claim theorems -/

set_option maxRecDepth 40000 in
/-- C1: the claim says an 8+ rune verbatim fragment of the noise-stripped
token inside the noise-stripped output makes `detectLeak` report a match
even when the full token is absent.  The code disagrees: its "partial"
scan sets the window length to the full token length, so only the whole
noise-stripped token can ever match.  Here the noise-stripped token
"abcdefghij" is 10 ≥ 8 runes long, its 8-rune fragment "abcdefgh"
appears verbatim in the noise-stripped output "xxabcdefghzz", and yet
`detectLeak` reports no match — contradicting the claim (and the
source's own comment "look for any 8+ char substring of the token"). -/
theorem canary_fragment_window_equals_full_token :
    detectLeak (strOf "xxabcdefghzz") (strOf "abcdefghij") = none ∧
    minPartialLen ≤ (stripNoise ((strOf "abcdefghij").map charToLower)).length ∧
    ((stripNoise ((strOf "abcdefghij").map charToLower)).take 8).length = 8 ∧
    containsStr (stripNoise ((strOf "xxabcdefghzz").map charToLower))
      ((stripNoise ((strOf "abcdefghij").map charToLower)).take 8) = true := by
  decide

/-- C4: a protector's verdict is safe exactly when no recorded threat
reaches the threshold, and `New` fixes the threshold at 0.5; this holds
for both `Analyze` and `ValidateOutput`. -/
theorem protector_safe_iff (gs : List GuardM) (input output : Str)
    (md : List (String × MetaVal)) :
    ((analyze (newProtector gs) input).safe = true ↔
      ¬ ∃ t ∈ (analyze (newProtector gs) input).threats,
          (newProtector gs).threshold ≤ t.severity) ∧
    ((validateOutput (newProtector gs) output md).safe = true ↔
      ¬ ∃ t ∈ (validateOutput (newProtector gs) output md).threats,
          (newProtector gs).threshold ≤ t.severity) ∧
    (newProtector gs).threshold = 1/2 := by
  refine ⟨?_, ?_, rfl⟩ <;>
    simp [analyze, validateOutput, buildResult, List.any_eq_true, ge_iff_le]

/-- C5 counterexample: `"b  "` has 3 characters while `"a"` has fewer
than 3, yet the similarity of their signatures is 1.0, not the 0.0 the
claim requires — trimming removes the trailing spaces, so both
signatures end up with no trigrams and the empty-empty convention
applies. -/
theorem similarity_short_exactly_one_cex :
    (strOf "a").length < 3 ∧ 3 ≤ (strOf "b  ").length ∧
    similarity (generateSignature (strOf "a")) (generateSignature (strOf "b  ")) = 1 ∧
    ¬ similarity (generateSignature (strOf "a")) (generateSignature (strOf "b  ")) = 0 := by
  decide

/-- C5 amended: two texts of fewer than 3 characters always have
signature similarity 1.0; and when exactly one of the two normalised
(lowercased, whitespace-trimmed) texts has 3 or more runes — the rune
count recorded in the signature — the similarity is 0.0. -/
theorem similarity_short_inputs_amended (t1 t2 : Str) :
    (t1.length < 3 → t2.length < 3 →
      similarity (generateSignature t1) (generateSignature t2) = 1) ∧
    (3 ≤ (generateSignature t1).length → (generateSignature t2).length < 3 →
      similarity (generateSignature t1) (generateSignature t2) = 0) ∧
    ((generateSignature t1).length < 3 → 3 ≤ (generateSignature t2).length →
      similarity (generateSignature t1) (generateSignature t2) = 0) := by
  refine ⟨?_, ?_, ?_⟩
  · intro h1 h2
    have e1 : (generateSignature t1).ngrams = [] :=
      (generateSignature_ngrams_eq_nil_iff t1).mpr
        (lt_of_le_of_lt (generateSignature_length_le t1) h1)
    have e2 : (generateSignature t2).ngrams = [] :=
      (generateSignature_ngrams_eq_nil_iff t2).mpr
        (lt_of_le_of_lt (generateSignature_length_le t2) h2)
    unfold similarity
    rw [if_pos ⟨e1, e2⟩]
  · intro h1 h2
    have e1 : (generateSignature t1).ngrams ≠ [] := by
      intro he
      exact absurd ((generateSignature_ngrams_eq_nil_iff t1).mp he) (not_lt.mpr h1)
    have e2 : (generateSignature t2).ngrams = [] :=
      (generateSignature_ngrams_eq_nil_iff t2).mpr h2
    unfold similarity
    rw [if_neg (by simp [e1]), if_pos (Or.inr e2)]
  · intro h1 h2
    have e1 : (generateSignature t1).ngrams = [] :=
      (generateSignature_ngrams_eq_nil_iff t1).mpr h1
    have e2 : (generateSignature t2).ngrams ≠ [] := by
      intro he
      exact absurd ((generateSignature_ngrams_eq_nil_iff t2).mp he) (not_lt.mpr h2)
    unfold similarity
    rw [if_neg (by simp [e2]), if_pos (Or.inl e1)]

/-- C5 amended, witness: `"a"` and `"hi"` (both under 3 characters) have
similarity 1.0; `"abcd"` normalises to 4 ≥ 3 runes while `"a"` stays
under 3, giving similarity 0.0. -/
theorem similarity_short_inputs_amended_witness :
    ((strOf "a").length < 3 ∧ (strOf "hi").length < 3 ∧
      similarity (generateSignature (strOf "a")) (generateSignature (strOf "hi")) = 1) ∧
    (3 ≤ (generateSignature (strOf "abcd")).length ∧ (generateSignature (strOf "a")).length < 3 ∧
      similarity (generateSignature (strOf "abcd")) (generateSignature (strOf "a")) = 0) :=
  ⟨⟨by decide, by decide,
      (similarity_short_inputs_amended (strOf "a") (strOf "hi")).1 (by decide) (by decide)⟩,
    ⟨by decide, by decide,
      (similarity_short_inputs_amended (strOf "abcd") (strOf "a")).2.1 (by decide) (by decide)⟩⟩

/-- C9: the Jaccard similarity of any two signatures lies in [0, 1], and
the min-accumulated intersection sum never exceeds the max-accumulated
union sum. -/
theorem similarity_bounds (a b : Sig) :
    0 ≤ similarity a b ∧ similarity a b ≤ 1 ∧
    interSum a.ngrams b.ngrams ≤ unionSum a.ngrams b.ngrams :=
  ⟨similarity_nonneg a b, similarity_le_one a b, interSum_le_unionSum a.ngrams b.ngrams⟩

/-- C10: `InMemoryStore.Add` returns a nil error on every store state and
signature; the Store interface's error path is never exercised. -/
theorem store_add_never_errors (s : MemStore) (sig : Sig) : (storeAdd s sig).2 = none := by
  unfold storeAdd
  split_ifs <;> rfl

/-- C2: for a store created with positive capacity `n`, (i) no sequence
of `Add` calls ever pushes the signature count past `n`; (ii) an `Add`
against a store holding exactly `n` signatures drops precisely the
oldest and appends the new one; (iii) immediately after any `Add` of a
well-formed signature, a `Search` using that signature as the query with
threshold at most 1.0 returns a perfect (similarity 1.0) match. -/
theorem store_capacity_fifo_search (n : ℕ) (hn : 0 < n) :
    (∀ sigs : List Sig, (addAll sigs (newInMemoryStore (n : ℤ))).signatures.length ≤ n) ∧
    (∀ (st : MemStore) (sig : Sig), st.maxSize = n → st.signatures.length = n →
      (storeAdd st sig).1.signatures = st.signatures.drop 1 ++ [sig]) ∧
    (∀ (st : MemStore) (sig : Sig) (thr : ℚ), SigWF sig → thr ≤ 1 →
      ∃ r, storeSearch (storeAdd st sig).1 sig thr = some r ∧ r.2 = 1) := by
  refine ⟨?_, ?_, ?_⟩
  · intro sigs
    have hst : newInMemoryStore (n : ℤ) = { signatures := [], maxSize := n } := by
      unfold newInMemoryStore
      rw [if_neg (by exact_mod_cast not_le.mpr hn)]
      simp
    rw [hst]
    exact addAll_length_le sigs _ hn (by simp)
  · intro st sig hmax hlen
    unfold storeAdd
    rw [if_pos (by omega)]
  · intro st sig thr hwf hthr
    have hmem : sig ∈ (storeAdd st sig).1.signatures := by
      unfold storeAdd
      split_ifs <;> simp
    exact searchGo_perfect sig thr hthr (storeAdd st sig).1.signatures none
      (fun b hb => by simp at hb) ⟨sig, hmem, similarity_self sig hwf⟩

/-- C2 witness: capacity 2, three adds stay within the bound; the third
add on a full store evicts the oldest; searching the just-added
signature (threshold 1.0) finds a perfect match. -/
theorem store_capacity_fifo_search_witness :
    0 < 2 ∧
    (addAll [generateSignature (strOf "abc"), generateSignature (strOf "abd"),
        generateSignature (strOf "abe")] (newInMemoryStore ((2 : ℕ) : ℤ))).signatures.length ≤ 2 ∧
    ((storeAdd
        { signatures := [generateSignature (strOf "abc"), generateSignature (strOf "abd")],
          maxSize := 2 } (generateSignature (strOf "abe"))).1.signatures
      = [generateSignature (strOf "abc"), generateSignature (strOf "abd")].drop 1
          ++ [generateSignature (strOf "abe")]) ∧
    (∃ r, storeSearch
        (storeAdd
          { signatures := [generateSignature (strOf "abc"), generateSignature (strOf "abd")],
            maxSize := 2 } (generateSignature (strOf "abe"))).1
        (generateSignature (strOf "abe")) 1 = some r ∧ r.2 = 1) :=
  ⟨by decide,
    (store_capacity_fifo_search 2 (by decide)).1 _,
    (store_capacity_fifo_search 2 (by decide)).2.1 _ _ rfl (by decide),
    (store_capacity_fifo_search 2 (by decide)).2.2 _ _ _ (by decide) (by decide)⟩

set_option maxRecDepth 40000 in
/-- C3 counterexample: the downstream continuation appends exactly one
new threat, of category "role_manipulation" and severity 0.  The claim
says the stored signature then carries that category; the code instead
stores category "custom", because its selection loop only fires on a
severity strictly greater than its zero start. -/
theorem memory_learn_category_cex :
    ((memExecute (newInMemoryStore 10) (4/5) (newContext (strOf "abc"))
        (fun c => addThreat c
          { ttype := "role_manipulation", severity := 0, message := "m", guard := "g" })).2.threats
      = [{ ttype := "role_manipulation", severity := 0, message := "m", guard := "g" }]) ∧
    ((memExecute (newInMemoryStore 10) (4/5) (newContext (strOf "abc"))
        (fun c => addThreat c
          { ttype := "role_manipulation", severity := 0, message := "m", guard := "g" })).1.signatures.map
      Sig.threatType = ["custom"]) ∧
    "custom" ≠ "role_manipulation" := by
  decide

/-- C3 amended: after the memory guard's `Execute`, the store is
unchanged exactly when the downstream continuation appended no threat
(in particular when the context was already halted or when only the
guard's own match threat exists); otherwise the input's signature is
added carrying the *maximum* severity among the newly appended threats
together with the category of a new threat attaining that maximum
(mapped to "custom" when empty) — except that when the maximum severity
is 0 (no new threat has positive severity) the stored category is
"custom" regardless of the new threats' categories, and the stored
severity is 0. -/
theorem memory_learn_amended (store : MemStore) (thr : ℚ) (ctx : Context)
    (next : Context → Context)
    (hnext : ∀ c, ∃ ts, (next c).threats = c.threats ++ ts) :
    (memNewThreats store thr ctx next = [] → (memExecute store thr ctx next).1 = store) ∧
    (memNewThreats store thr ctx next ≠ [] →
      ∃ sigStored,
        (memExecute store thr ctx next).1 = (storeAdd store sigStored).1 ∧
        sigStored.ngrams = (generateSignature ctx.input).ngrams ∧
        sigStored.severity = maxSev (memNewThreats store thr ctx next) ∧
        (0 < maxSev (memNewThreats store thr ctx next) →
          ∃ t ∈ memNewThreats store thr ctx next,
            t.severity = maxSev (memNewThreats store thr ctx next) ∧
            sigStored.threatType = (if t.ttype = "" then "custom" else t.ttype)) ∧
        (maxSev (memNewThreats store thr ctx next) = 0 →
          sigStored.threatType = "custom")) := by
  by_cases hh : (memPreCtx store thr ctx).halted = true
  · have hnew : memNewThreats store thr ctx next = [] := by
      unfold memNewThreats
      rw [if_pos hh]
      simp
    have hstore : (memExecute store thr ctx next).1 = store := by
      simp only [memExecute]
      rw [if_pos hh]
      simp
    exact ⟨fun _ => hstore, fun hne => absurd hnew hne⟩
  · obtain ⟨ts, hts⟩ := hnext (memPreCtx store thr ctx)
    have hnew : memNewThreats store thr ctx next = ts := by
      unfold memNewThreats
      rw [if_neg hh, hts]
      simp
    constructor
    · intro hempty
      have hts0 : ts = [] := hnew ▸ hempty
      have hlearn : ¬ (memPreCtx store thr ctx).threats.length
          < (next (memPreCtx store thr ctx)).threats.length := by
        rw [hts, hts0]
        simp
      simp only [memExecute]
      rw [if_neg hh, if_neg hlearn]
    · intro hne
      have htsne : ts ≠ [] := hnew ▸ hne
      have hlearn : (memPreCtx store thr ctx).threats.length
          < (next (memPreCtx store thr ctx)).threats.length := by
        rw [hts, List.length_append]
        have := List.length_pos.mpr htsne
        omega
      have hdrop : (next (memPreCtx store thr ctx)).threats.drop
          (memPreCtx store thr ctx).threats.length = ts := by
        rw [hts]
        simp
      rw [hnew]
      refine ⟨{ ngrams := (generateSignature ctx.input).ngrams
                length := (generateSignature ctx.input).length
                threatType := if (bestNew ts).1 = "" then "custom" else (bestNew ts).1
                severity := (bestNew ts).2 }, ?_, rfl, ?_, ?_, ?_⟩
      · simp only [memExecute]
        rw [if_neg hh, if_pos hlearn, hdrop]
      · exact bestNew_snd_eq ts
      · intro hpos
        rcases bestNew_cases ts with h0 | ⟨t, ht, he⟩
        · exact absurd hpos (by rw [← bestNew_snd_eq, h0]; norm_num)
        · refine ⟨t, ht, by rw [← bestNew_snd_eq, he], ?_⟩
          show (if (bestNew ts).1 = "" then "custom" else (bestNew ts).1)
              = if t.ttype = "" then "custom" else t.ttype
          rw [he]
      · intro hzero
        have hall : ∀ t ∈ ts, t.severity ≤ 0 := by
          intro t ht
          exact hzero ▸ le_maxSev ts t ht
        show (if (bestNew ts).1 = "" then "custom" else (bestNew ts).1) = "custom"
        rw [bestNew_of_nonpos ts hall]
        rfl

set_option maxRecDepth 40000 in
/-- C3 amended, witness: a continuation that appends one severity-1
role-manipulation threat makes the memory guard persist the input's
signature with that severity and category. -/
theorem memory_learn_amended_witness :
    memNewThreats (newInMemoryStore 10) (4/5) (newContext (strOf "abc"))
        (fun c => addThreat c
          { ttype := "role_manipulation", severity := 1, message := "m", guard := "g" }) ≠ [] ∧
    (∃ sigStored,
      (memExecute (newInMemoryStore 10) (4/5) (newContext (strOf "abc"))
          (fun c => addThreat c
            { ttype := "role_manipulation", severity := 1, message := "m", guard := "g" })).1
        = (storeAdd (newInMemoryStore 10) sigStored).1 ∧
      sigStored.ngrams = (generateSignature (newContext (strOf "abc")).input).ngrams ∧
      sigStored.severity = maxSev (memNewThreats (newInMemoryStore 10) (4/5)
        (newContext (strOf "abc")) (fun c => addThreat c
          { ttype := "role_manipulation", severity := 1, message := "m", guard := "g" })) ∧
      (0 < maxSev (memNewThreats (newInMemoryStore 10) (4/5)
          (newContext (strOf "abc")) (fun c => addThreat c
            { ttype := "role_manipulation", severity := 1, message := "m", guard := "g" })) →
        ∃ t ∈ memNewThreats (newInMemoryStore 10) (4/5)
            (newContext (strOf "abc")) (fun c => addThreat c
              { ttype := "role_manipulation", severity := 1, message := "m", guard := "g" }),
          t.severity = maxSev (memNewThreats (newInMemoryStore 10) (4/5)
            (newContext (strOf "abc")) (fun c => addThreat c
              { ttype := "role_manipulation", severity := 1, message := "m", guard := "g" })) ∧
          sigStored.threatType = (if t.ttype = "" then "custom" else t.ttype)) ∧
      (maxSev (memNewThreats (newInMemoryStore 10) (4/5)
          (newContext (strOf "abc")) (fun c => addThreat c
            { ttype := "role_manipulation", severity := 1, message := "m", guard := "g" })) = 0 →
        sigStored.threatType = "custom")) :=
  ⟨by decide,
    (memory_learn_amended (newInMemoryStore 10) (4/5) (newContext (strOf "abc"))
      (fun c => addThreat c
        { ttype := "role_manipulation", severity := 1, message := "m", guard := "g" })
      (fun c => ⟨[{ ttype := "role_manipulation", severity := 1, message := "m", guard := "g" }],
        rfl⟩)).2 (by decide)⟩

/-- C7: when two or more critical keywords fuzzy-match, the heuristic
guard's fuzzy stage appends exactly one threat — the fixed
instruction-override threat of severity 0.65 — never one per keyword;
with fewer than two matches it appends nothing. -/
theorem heuristic_fuzzy_single_threat (ctx : Context) (haltOnDetect : Bool) :
    (2 ≤ (fuzzyMatch ctx.input).length →
      (heuristicFuzzyStage ctx haltOnDetect).threats = ctx.threats ++ [fuzzyThreat] ∧
      (heuristicFuzzyStage ctx haltOnDetect).threats.length = ctx.threats.length + 1) ∧
    ((fuzzyMatch ctx.input).length < 2 →
      (heuristicFuzzyStage ctx haltOnDetect).threats = ctx.threats) ∧
    fuzzyThreat.severity = 13/20 ∧ fuzzyThreat.ttype = "instruction_override" := by
  refine ⟨?_, ?_, rfl, rfl⟩
  · intro h2
    unfold heuristicFuzzyStage
    rw [if_pos h2]
    cases haltOnDetect <;> simp [addThreat]
  · intro hlt
    unfold heuristicFuzzyStage
    rw [if_neg (not_le.mpr hlt)]

set_option maxRecDepth 200000 in
/-- C7 witness: the leet-speak input "1gnor3 all syst3m" fuzzy-matches
both "ignore" and "system", producing exactly the single fixed threat;
the benign input "zzz qqq" matches no keyword and adds nothing. -/
theorem heuristic_fuzzy_single_threat_witness :
    2 ≤ (fuzzyMatch (strOf "1gnor3 all syst3m")).length ∧
    (heuristicFuzzyStage (newContext (strOf "1gnor3 all syst3m")) false).threats
      = (newContext (strOf "1gnor3 all syst3m")).threats ++ [fuzzyThreat] ∧
    (fuzzyMatch (strOf "zzz qqq")).length < 2 ∧
    (heuristicFuzzyStage (newContext (strOf "zzz qqq")) false).threats
      = (newContext (strOf "zzz qqq")).threats :=
  ⟨by decide,
    ((heuristic_fuzzy_single_threat (newContext (strOf "1gnor3 all syst3m")) false).1
      (by decide)).1,
    by decide,
    (heuristic_fuzzy_single_threat (newContext (strOf "zzz qqq")) false).2.1 (by decide)⟩

/-- C8: (i) a chain entered with the halt flag set runs no guard at all;
(ii) a guard that does not invoke its continuation is the last guard to
run, and the chain's result is exactly that guard's context mutation;
(iii) a guard that sets the halt flag before invoking its continuation
likewise prevents every later guard from running; (iv) when every guard
only appends threats, every threat accumulated at any point — in
particular before a halt — is still present in the final context. -/
theorem pipeline_halt_early_retains_threats (gs rest : List GuardM) (g : GuardM)
    (ctx : Context) :
    (ctx.halted = true → runGuardsT gs ctx = (ctx, [])) ∧
    (ctx.halted = false → g.callNext (g.before ctx) = false →
      runGuardsT (g :: rest) ctx = (g.before ctx, [g.name])) ∧
    (ctx.halted = false → (g.before ctx).halted = true → g.callNext (g.before ctx) = true →
      runGuardsT (g :: rest) ctx = (g.after (g.before ctx) (g.before ctx), [g.name])) ∧
    ((∀ gm ∈ gs, MonotoneGuard gm) →
      ∃ ts, (runGuards gs ctx).threats = ctx.threats ++ ts) := by
  refine ⟨runGuardsT_halted gs ctx, ?_, ?_, runGuardsT_threats_mono gs ctx⟩
  · intro hh hcall
    unfold runGuardsT
    rw [if_neg (by rw [hh]; simp), if_neg (by rw [hcall]; simp)]
  · intro hh hhalt hcall
    unfold runGuardsT
    rw [if_neg (by rw [hh]; simp), if_pos hcall,
      runGuardsT_halted rest (g.before ctx) hhalt]

/-- C8 witness: a pre-halted context runs nothing; a guard that skips its
continuation leaves the chain at its own mutation with no later guard
run; a guard that halts before continuing stops the rest of the chain;
and an appending guard retains the initial threats. -/
theorem pipeline_halt_early_retains_threats_witness :
    ({ newContext (strOf "x") with halted := true } : Context).halted = true ∧
    runGuardsT
      [{ name := "stopper", isOutput := false,
         before := fun c => addThreat c { ttype := "t", severity := 1, message := "m", guard := "w" },
         callNext := fun _ => false, after := fun _ d => d }]
      { newContext (strOf "x") with halted := true }
      = ({ newContext (strOf "x") with halted := true }, []) ∧
    runGuardsT
      [{ name := "stopper", isOutput := false,
         before := fun c => addThreat c { ttype := "t", severity := 1, message := "m", guard := "w" },
         callNext := fun _ => false, after := fun _ d => d },
       { name := "noop", isOutput := false, before := fun c => c,
         callNext := fun _ => true, after := fun _ d => d }]
      (newContext (strOf "x"))
      = (addThreat (newContext (strOf "x"))
          { ttype := "t", severity := 1, message := "m", guard := "w" }, ["stopper"]) ∧
    runGuardsT
      [{ name := "halter", isOutput := false, before := fun c => { c with halted := true },
         callNext := fun _ => true, after := fun _ d => d },
       { name := "noop", isOutput := false, before := fun c => c,
         callNext := fun _ => true, after := fun _ d => d }]
      (newContext (strOf "x"))
      = ({ newContext (strOf "x") with halted := true }, ["halter"]) ∧
    (∃ ts, (runGuards
        [{ name := "adder", isOutput := false,
           before := fun c => addThreat c { ttype := "t", severity := 1, message := "m", guard := "w" },
           callNext := fun _ => true, after := fun _ d => d }]
        (newContext (strOf "x"))).threats = (newContext (strOf "x")).threats ++ ts) := by
  refine ⟨rfl, ?_, ?_, ?_, ?_⟩
  · exact (pipeline_halt_early_retains_threats
      [{ name := "stopper", isOutput := false,
         before := fun c => addThreat c { ttype := "t", severity := 1, message := "m", guard := "w" },
         callNext := fun _ => false, after := fun _ d => d }] []
      { name := "noop", isOutput := false, before := fun c => c,
        callNext := fun _ => true, after := fun _ d => d }
      { newContext (strOf "x") with halted := true }).1 rfl
  · exact (pipeline_halt_early_retains_threats []
      [{ name := "noop", isOutput := false, before := fun c => c,
         callNext := fun _ => true, after := fun _ d => d }]
      { name := "stopper", isOutput := false,
        before := fun c => addThreat c { ttype := "t", severity := 1, message := "m", guard := "w" },
        callNext := fun _ => false, after := fun _ d => d }
      (newContext (strOf "x"))).2.1 rfl rfl
  · exact (pipeline_halt_early_retains_threats []
      [{ name := "noop", isOutput := false, before := fun c => c,
         callNext := fun _ => true, after := fun _ d => d }]
      { name := "halter", isOutput := false, before := fun c => { c with halted := true },
        callNext := fun _ => true, after := fun _ d => d }
      (newContext (strOf "x"))).2.2.1 rfl rfl rfl
  · exact (pipeline_halt_early_retains_threats
      [{ name := "adder", isOutput := false,
         before := fun c => addThreat c { ttype := "t", severity := 1, message := "m", guard := "w" },
         callNext := fun _ => true, after := fun _ d => d }] []
      { name := "noop", isOutput := false, before := fun c => c,
        callNext := fun _ => true, after := fun _ d => d }
      (newContext (strOf "x"))).2.2.2
      (fun gm hm => by
        rw [List.mem_singleton] at hm
        subst hm
        exact ⟨fun c => ⟨[{ ttype := "t", severity := 1, message := "m", guard := "w" }], rfl⟩,
          fun c d => ⟨[], by simp⟩⟩)

/-- Membership in the embedding guard's appended threat list: exactly the
threats built from reference vectors whose similarity passes the
threshold. -/
theorem mem_embThreatsFor (thr : ℝ) (input : Str) :
    ∀ (vs : List EVector) (t : EThreat),
      t ∈ embThreatsFor thr input vs ↔
        ∃ v, v ∈ vs ∧ thr ≤ cosineSimilarity (textToVector input) v.values ∧
          t = mkEThreat input v := by
  intro vs
  induction vs with
  | nil => intro t; simp [embThreatsFor]
  | cons v rest ih =>
    intro t
    unfold embThreatsFor
    by_cases h : thr ≤ cosineSimilarity (textToVector input) v.values
    · rw [if_pos h]
      constructor
      · intro hmem
        rcases List.mem_cons.mp hmem with rfl | hmem'
        · exact ⟨v, List.mem_cons_self _ _, h, rfl⟩
        · obtain ⟨v', hv', hth', he'⟩ := (ih t).mp hmem'
          exact ⟨v', List.mem_cons_of_mem _ hv', hth', he'⟩
      · rintro ⟨v', hv', hth', he'⟩
        rcases List.mem_cons.mp hv' with rfl | hv''
        · exact he' ▸ List.mem_cons_self _ _
        · exact List.mem_cons_of_mem _ ((ih t).mpr ⟨v', hv'', hth', he'⟩)
    · rw [if_neg h]
      constructor
      · intro hmem
        obtain ⟨v', hv', hth', he'⟩ := (ih t).mp hmem
        exact ⟨v', List.mem_cons_of_mem _ hv', hth', he'⟩
      · rintro ⟨v', hv', hth', he'⟩
        rcases List.mem_cons.mp hv' with rfl | hv''
        · exact absurd hth' h
        · exact (ih t).mpr ⟨v', hv'', hth', he'⟩

/-- C6: the embedding guard appends, to the threats already in the
context, exactly one threat per reference vector whose cosine similarity
with the input vector meets or exceeds the threshold; each such threat's
severity is exactly that cosine similarity score; every score is exposed
in the per-label score map; and `New` defaults a zero threshold to
0.75. -/
theorem embedding_threat_iff_threshold (thr : ℝ) (vecs : List EVector) (ctx : EContext) :
    (embExecute thr vecs ctx (fun c => c)).threats
      = ctx.threats ++ embThreatsFor thr ctx.input vecs ∧
    (embExecute thr vecs ctx (fun c => c)).scores
      = vecs.map (fun v => (v.label, cosineSimilarity (textToVector ctx.input) v.values)) ∧
    (∀ t, t ∈ embThreatsFor thr ctx.input vecs ↔
      ∃ v, v ∈ vecs ∧ thr ≤ cosineSimilarity (textToVector ctx.input) v.values ∧
        t = mkEThreat ctx.input v ∧
        t.severity = cosineSimilarity (textToVector ctx.input) v.values) ∧
    embNewThreshold 0 = 3/4 := by
  refine ⟨?_, ?_, ?_, ?_⟩
  · by_cases hh : ctx.halted = true <;> simp [embExecute, hh]
  · by_cases hh : ctx.halted = true <;> simp [embExecute, hh]
  · intro t
    rw [mem_embThreatsFor thr ctx.input vecs t]
    constructor
    · rintro ⟨v, hv, hth, he⟩
      exact ⟨v, hv, hth, he, by rw [he]; rfl⟩
    · rintro ⟨v, hv, hth, he, _⟩
      exact ⟨v, hv, hth, he⟩
  · unfold embNewThreshold
    rw [if_pos rfl]
